import Mathlib

/-!
Verification development for the `headers` module of the rtsp-types crate.

The module provides a case-insensitive header collection: `HeaderName` (an
ASCII string with case-insensitive equality, ordering and hashing),
`HeaderValue` (a UTF-8 string), `Headers` (a `BTreeMap<HeaderName,
HeaderValue>` wrapper with insert/append/remove/get/iterate), and a folding
normalizer used by bulk ingestion (`Headers::from_headers_ref`).

Byte strings are modelled as `List Nat` (each element a byte value); the
`BTreeMap` is modelled as an association list kept sorted by the key order,
with the documented `BTreeMap` semantics (an insert on an existing key
replaces the value but keeps the stored key).
-/

namespace RtspTypes

/-- ASCII lowercasing of a single byte, as done by `u8::make_ascii_lowercase`:
uppercase ASCII letters (0x41..=0x5A) are mapped 32 positions up, every other
byte is unchanged. -/
def lower (b : Nat) : Nat :=
  if 65 ≤ b ∧ b ≤ 90 then b + 32 else b

/-- Three-way comparison on natural numbers, as `Ord for u8`/`usize`. -/
def natCmp (a b : Nat) : Ordering :=
  if a < b then Ordering.lt else if a = b then Ordering.eq else Ordering.gt

/-- Embeds `HeaderName(Cow<'static, str>)`: an RTSP header name, modelled by
its byte sequence. The borrowed-static versus owned distinction is an
ownership detail with no observable behaviour, so it is not modelled. -/
structure HeaderName where
  bytes : List Nat
deriving DecidableEq

/-- Embeds `HeaderValue(String)`: an RTSP header value, modelled by the UTF-8
byte sequence of the underlying `String`. -/
structure HeaderValue where
  bytes : List Nat
deriving DecidableEq

/-- Embeds `AsciiError`: a `HeaderName` constructor was given non-ASCII input. -/
inductive AsciiError
  | mk
deriving DecidableEq

/-- Embeds `Utf8Error`: a `HeaderValue` constructor was given invalid UTF-8. -/
inductive Utf8Error
  | mk
deriving DecidableEq

deriving instance DecidableEq for Except

/-- Embeds the loop of `Ord for HeaderName::cmp`: walk the two byte slices in
lock step (`Iterator::zip` stops at the shorter one), lowercase each pair and
return the first non-equal comparison, `Ordering::Equal` if none. -/
def zipCmp : List Nat → List Nat → Ordering
  | s :: ss, o :: os =>
    match natCmp (lower s) (lower o) with
    | Ordering.eq => zipCmp ss os
    | ne => ne
  | _, _ => Ordering.eq

/-- Embeds `Ord for HeaderName::cmp`: the source rebinds `s` and `o` to the
slices truncated to the shared prefix length (`let s = &s[..len]`), runs the
lowercased bytewise loop over them, and falls through to
`s.len().cmp(&o.len())` — which, because of the rebinding, compares the
lengths of the truncated slices (both `len`), not the original lengths.
The tie-break therefore always yields `Ordering.eq`. -/
def HeaderName.cmp (s o : HeaderName) : Ordering :=
  match zipCmp (s.bytes.take (min s.bytes.length o.bytes.length))
      (o.bytes.take (min s.bytes.length o.bytes.length)) with
  | Ordering.eq =>
    natCmp (s.bytes.take (min s.bytes.length o.bytes.length)).length
      (o.bytes.take (min s.bytes.length o.bytes.length)).length
  | ne => ne

/-- Embeds `PartialEq<str> for HeaderName::eq` (which `PartialEq for
HeaderName` delegates to): unequal lengths are never equal, otherwise every
zipped byte pair must agree after ASCII lowercasing. -/
def HeaderName.beq (s o : HeaderName) : Bool :=
  if s.bytes.length ≠ o.bytes.length then false
  else (List.zip s.bytes o.bytes).all fun p => lower p.1 == lower p.2

/-- Embeds `Hash for HeaderName`: the impl feeds each byte of the stored name
to the hasher, without any lowercasing. A hasher is modelled abstractly as a
state-transition function on `Nat` consuming one byte at a time; the hash of a
name is the fold of its fed byte stream. -/
def HeaderName.hashWith (step : Nat → Nat → Nat) (init : Nat) (n : HeaderName) : Nat :=
  n.bytes.foldl step init

/-- Whether a byte is an ASCII space or horizontal tab, the continuation
whitespace recognised by the folding normalizer. -/
def isWsp (b : Nat) : Bool :=
  b == 32 || b == 9

/-- Embeds the `iter().enumerate().find(not space/tab)` search of the folding
loop: the index of the first byte that is not a space or tab, if any. -/
def findNotWsp : List Nat → Option Nat
  | [] => none
  | b :: rest => if !isWsp b then some 0 else (findNotWsp rest).map (· + 1)

/-- Embeds the value-normalization loop of `Headers::from_headers_ref`: scan
the raw bytes; on a CRLF, find the first following byte that is not
space/tab — if one exists at index `pos`, emit a single space and continue
from that byte, otherwise drop the rest of the input; any other byte is
copied unchanged. -/
def normalizeValue : List Nat → List Nat
  | [] => []
  | b :: rest =>
    if b = 13 ∧ rest.head? = some 10 then
      match findNotWsp rest.tail with
      | some pos => 32 :: normalizeValue (rest.tail.drop pos)
      | none => []
    else
      b :: normalizeValue rest
termination_by l => l.length
decreasing_by
  · simp only [List.length_drop]
    have : rest.tail.length ≤ rest.length := by
      cases rest <;> simp
    simp only [List.length_cons]
    omega
  · simp

/-- UTF-8 validation automaton: the first argument is the list of inclusive
byte ranges still expected for the current multi-byte sequence. At a sequence
boundary (no pending ranges) the lead byte selects the expected continuation
ranges per RFC 3629 — the lead-byte-dependent first-continuation ranges
exclude overlong forms, surrogates and code points above 0x10FFFF. -/
def utf8Run : List (Nat × Nat) → List Nat → Bool
  | [], [] => true
  | _ :: _, [] => false
  | [], b :: rest =>
    if b < 128 then utf8Run [] rest
    else if 194 ≤ b ∧ b ≤ 223 then utf8Run [(128, 191)] rest
    else if b = 224 then utf8Run [(160, 191), (128, 191)] rest
    else if (225 ≤ b ∧ b ≤ 236) ∨ b = 238 ∨ b = 239 then
      utf8Run [(128, 191), (128, 191)] rest
    else if b = 237 then utf8Run [(128, 159), (128, 191)] rest
    else if b = 240 then utf8Run [(144, 191), (128, 191), (128, 191)] rest
    else if 241 ≤ b ∧ b ≤ 243 then utf8Run [(128, 191), (128, 191), (128, 191)] rest
    else if b = 244 then utf8Run [(128, 143), (128, 191), (128, 191)] rest
    else false
  | (lo, hi) :: ranges, b :: rest => (lo ≤ b && b ≤ hi) && utf8Run ranges rest

/-- UTF-8 validity of a byte sequence per RFC 3629, modelling
`std::str::from_utf8` / `String::from_utf8`. -/
def isValidUtf8 (l : List Nat) : Bool :=
  utf8Run [] l

/-- Whether every byte is ASCII (< 0x80), as `<[u8]>::is_ascii`. -/
def isAsciiBytes (l : List Nat) : Bool :=
  l.all fun b => b < 128

/-- Embeds `TryFrom<&[u8]> for HeaderName`: reject non-ASCII input with
`AsciiError`, then run the bytes through `String::from_utf8`, mapping a UTF-8
failure to `AsciiError` as the source does. -/
def HeaderName.tryFromBytes (v : List Nat) : Except AsciiError HeaderName :=
  if isAsciiBytes v then
    if isValidUtf8 v then Except.ok ⟨v⟩ else Except.error AsciiError.mk
  else Except.error AsciiError.mk

/-- Embeds `HeaderName::from_static_str` (and `TryFrom<String>`): the input is
already a string, so only the ASCII check is performed. -/
def HeaderName.fromStaticStr (v : List Nat) : Except AsciiError HeaderName :=
  if isAsciiBytes v then Except.ok ⟨v⟩ else Except.error AsciiError.mk

/-- Embeds `TryFrom<&[u8]>` / `TryFrom<Vec<u8>>` for `HeaderValue`: run the
bytes through UTF-8 validation, failing with `Utf8Error`. -/
def HeaderValue.tryFromBytes (v : List Nat) : Except Utf8Error HeaderValue :=
  if isValidUtf8 v then Except.ok ⟨v⟩ else Except.error Utf8Error.mk

/-- Embeds `Headers(BTreeMap<HeaderName, HeaderValue>)`, modelled as an
association list kept sorted in strictly ascending `HeaderName.cmp` order. -/
structure Headers where
  entries : List (HeaderName × HeaderValue)
deriving DecidableEq

/-- Embeds `Headers::new`: the empty map. -/
def Headers.empty : Headers :=
  ⟨[]⟩

/-- Sorted-list insertion with `BTreeMap::insert` semantics: on an equal key
the value is replaced but the stored key is kept. -/
def insertEntries : List (HeaderName × HeaderValue) → HeaderName → HeaderValue →
    List (HeaderName × HeaderValue)
  | [], n, v => [(n, v)]
  | (k, w) :: rest, n, v =>
    match HeaderName.cmp n k with
    | Ordering.lt => (n, v) :: (k, w) :: rest
    | Ordering.eq => (k, v) :: rest
    | Ordering.gt => (k, w) :: insertEntries rest n v

/-- Embeds `Headers::insert`. -/
def Headers.insert (m : Headers) (n : HeaderName) (v : HeaderValue) : Headers :=
  ⟨insertEntries m.entries n v⟩

/-- Sorted-list append with the semantics of
`entry(name).and_modify(push ", " + value).or_insert(value)`: an existing
entry keeps its key and gets `", "` and the new value concatenated onto its
value, an absent name is inserted at its sorted position. -/
def appendEntries : List (HeaderName × HeaderValue) → HeaderName → HeaderValue →
    List (HeaderName × HeaderValue)
  | [], n, v => [(n, v)]
  | (k, w) :: rest, n, v =>
    match HeaderName.cmp n k with
    | Ordering.lt => (n, v) :: (k, w) :: rest
    | Ordering.eq => (k, ⟨w.bytes ++ [44, 32] ++ v.bytes⟩) :: rest
    | Ordering.gt => (k, w) :: appendEntries rest n v

/-- Embeds `Headers::append`. -/
def Headers.append (m : Headers) (n : HeaderName) (v : HeaderValue) : Headers :=
  ⟨appendEntries m.entries n v⟩

/-- Sorted-list removal with `BTreeMap::remove` semantics. -/
def removeEntries : List (HeaderName × HeaderValue) → HeaderName →
    List (HeaderName × HeaderValue)
  | [], _ => []
  | (k, w) :: rest, n =>
    match HeaderName.cmp n k with
    | Ordering.lt => (k, w) :: rest
    | Ordering.eq => rest
    | Ordering.gt => (k, w) :: removeEntries rest n

/-- Embeds `Headers::remove`. -/
def Headers.remove (m : Headers) (n : HeaderName) : Headers :=
  ⟨removeEntries m.entries n⟩

/-- Sorted-list lookup with `BTreeMap::get` semantics. -/
def getEntries : List (HeaderName × HeaderValue) → HeaderName → Option HeaderValue
  | [], _ => none
  | (k, w) :: rest, n =>
    match HeaderName.cmp n k with
    | Ordering.lt => none
    | Ordering.eq => some w
    | Ordering.gt => getEntries rest n

/-- Embeds `Headers::get`. -/
def Headers.get (m : Headers) (n : HeaderName) : Option HeaderValue :=
  getEntries m.entries n

/-- Embeds `Headers::names` (`BTreeMap::keys`): the names in map order. -/
def Headers.names (m : Headers) : List HeaderName :=
  m.entries.map Prod.fst

/-- Embeds `Headers::values` (`BTreeMap::values`): the values in map order. -/
def Headers.values (m : Headers) : List HeaderValue :=
  m.entries.map Prod.snd

/-- Embeds `HeaderRef`: one raw (name bytes, value bytes) pair as handed over
by the lower-level parser. -/
structure HeaderRef where
  name : List Nat
  value : List Nat

/-- Embeds one iteration of the `Headers::from_headers_ref` loop: fold the raw
value with `normalizeValue`, validate the name as ASCII and the folded value
as UTF-8 (the source `expect`s both, i.e. panics on failure — modelled as
`none`), and `append` the pair into the map. -/
def ingestStep (m : Headers) (h : HeaderRef) : Option Headers :=
  match HeaderName.tryFromBytes h.name, HeaderValue.tryFromBytes (normalizeValue h.value) with
  | Except.ok n, Except.ok v => some (m.append n v)
  | _, _ => none

/-- Embeds `Headers::from_headers_ref`: run `ingestStep` over the raw headers
in order, starting from the empty map. -/
def Headers.fromHeadersRef (hs : List HeaderRef) : Option Headers :=
  hs.foldlM ingestStep Headers.empty

/-- The maps reachable through the public construction API: the empty map,
closed under `insert`, `append` and `remove`, together with every map
produced by bulk ingestion. -/
inductive Headers.Reachable : Headers → Prop
  | empty : Headers.Reachable Headers.empty
  | insert (m : Headers) (n : HeaderName) (v : HeaderValue) :
      Headers.Reachable m → Headers.Reachable (m.insert n v)
  | append (m : Headers) (n : HeaderName) (v : HeaderValue) :
      Headers.Reachable m → Headers.Reachable (m.append n v)
  | remove (m : Headers) (n : HeaderName) :
      Headers.Reachable m → Headers.Reachable (m.remove n)
  | ingest (hs : List HeaderRef) (m : Headers) :
      Headers.fromHeadersRef hs = some m → Headers.Reachable m

/-- UTF-8 bytes of an ASCII Lean string literal, for readable concrete
inputs. -/
def strBytes (s : String) : List Nat :=
  s.data.map Char.toNat

/-- Plain lexicographic comparison of byte lists: first unequal position
decides, a strict prefix orders before its extension. -/
def lexCmp : List Nat → List Nat → Ordering
  | [], [] => Ordering.eq
  | [], _ :: _ => Ordering.lt
  | _ :: _, [] => Ordering.gt
  | a :: as, b :: bs =>
    match natCmp a b with
    | Ordering.eq => lexCmp as bs
    | ne => ne

/-! Helper lemmas about the comparison layer. -/

theorem natCmp_eq_iff {a b : Nat} : natCmp a b = Ordering.eq ↔ a = b := by
  unfold natCmp
  split
  · simp_all
    omega
  · split <;> simp_all

theorem natCmp_lt_iff {a b : Nat} : natCmp a b = Ordering.lt ↔ a < b := by
  unfold natCmp
  split
  · simp_all
  · split <;> simp_all

theorem natCmp_gt_iff {a b : Nat} : natCmp a b = Ordering.gt ↔ b < a := by
  unfold natCmp
  split
  · simp_all
    omega
  · split <;> simp_all
    omega

theorem lexCmp_cons_lt {a b : Nat} (as bs : List Nat) (h : a < b) :
    lexCmp (a :: as) (b :: bs) = Ordering.lt := by
  rw [lexCmp, natCmp_lt_iff.2 h]

theorem lexCmp_cons_eq {a b : Nat} (as bs : List Nat) (h : a = b) :
    lexCmp (a :: as) (b :: bs) = lexCmp as bs := by
  rw [lexCmp, natCmp_eq_iff.2 h]

theorem zipCmp_refl : ∀ (x : List Nat), zipCmp x x = Ordering.eq
  | [] => rfl
  | a :: as => by
    rw [zipCmp, natCmp_eq_iff.2 rfl]
    exact zipCmp_refl as

theorem zipCmp_gt_iff : ∀ {x y : List Nat}, zipCmp x y = Ordering.gt ↔ zipCmp y x = Ordering.lt
  | [], [] => by simp [zipCmp]
  | [], _ :: _ => by simp [zipCmp]
  | _ :: _, [] => by simp [zipCmp]
  | a :: as, b :: bs => by
    rw [zipCmp, zipCmp]
    rcases hab : natCmp (lower a) (lower b) with _ | _ | _
    · rw [natCmp_gt_iff.2 (natCmp_lt_iff.1 hab)]
      simp
    · rw [natCmp_eq_iff.2 (natCmp_eq_iff.1 hab).symm]
      exact zipCmp_gt_iff
    · rw [natCmp_lt_iff.2 (natCmp_gt_iff.1 hab)]
      simp

theorem zipCmp_lt_trans : ∀ {x y z : List Nat},
    zipCmp x y = Ordering.lt → zipCmp y z = Ordering.lt → zipCmp x z = Ordering.lt
  | [], _, _ => by
    intro h1 _
    exact nomatch h1
  | _ :: _, [], _ => by
    intro h1 _
    exact nomatch h1
  | _ :: _, _ :: _, [] => by
    intro _ h2
    exact nomatch h2
  | a :: as, b :: bs, c :: cs => by
    intro h1 h2
    rw [zipCmp] at h1 h2 ⊢
    rcases hab : natCmp (lower a) (lower b) with _ | _ | _ <;> (try rw [hab] at h1) <;>
      rcases hbc : natCmp (lower b) (lower c) with _ | _ | _ <;> (try rw [hbc] at h2)
    · rw [natCmp_lt_iff.2 (Nat.lt_trans (natCmp_lt_iff.1 hab) (natCmp_lt_iff.1 hbc))]
    · rw [natCmp_lt_iff.2 ((natCmp_eq_iff.1 hbc) ▸ natCmp_lt_iff.1 hab)]
    · exact nomatch h2
    · rw [natCmp_lt_iff.2 ((natCmp_eq_iff.1 hab).symm ▸ natCmp_lt_iff.1 hbc)]
    · rw [natCmp_eq_iff.2 ((natCmp_eq_iff.1 hab).trans (natCmp_eq_iff.1 hbc))]
      exact zipCmp_lt_trans h1 h2
    · exact nomatch h2
    · exact nomatch h1
    · exact nomatch h1
    · exact nomatch h1

theorem zipCmp_take : ∀ (s o : List Nat),
    zipCmp (s.take (min s.length o.length)) (o.take (min s.length o.length)) = zipCmp s o
  | [], o => by simp [zipCmp]
  | _ :: _, [] => by simp [zipCmp]
  | a :: as, b :: bs => by
    simp only [List.length_cons, Nat.succ_min_succ, List.take_succ_cons]
    rw [zipCmp, zipCmp]
    rcases hab : natCmp (lower a) (lower b) with _ | _ | _
    · rfl
    · exact zipCmp_take as bs
    · rfl

/-- Because the tie-break compares the truncated slices it never decides, so
the whole source comparison is just the lowercased shared-prefix loop. -/
theorem cmp_eq_zipCmp (s o : HeaderName) : s.cmp o = zipCmp s.bytes o.bytes := by
  rw [HeaderName.cmp, zipCmp_take]
  rcases hz : zipCmp s.bytes o.bytes with _ | _ | _
  · rfl
  · exact natCmp_eq_iff.2 (by simp only [List.length_take]; omega)
  · rfl

theorem cmp_refl (n : HeaderName) : n.cmp n = Ordering.eq := by
  rw [cmp_eq_zipCmp]
  exact zipCmp_refl n.bytes

theorem cmp_gt_iff (s o : HeaderName) :
    s.cmp o = Ordering.gt ↔ o.cmp s = Ordering.lt := by
  rw [cmp_eq_zipCmp, cmp_eq_zipCmp]
  exact zipCmp_gt_iff

theorem cmp_lt_trans {a b c : HeaderName} (h1 : a.cmp b = Ordering.lt)
    (h2 : b.cmp c = Ordering.lt) : a.cmp c = Ordering.lt := by
  rw [cmp_eq_zipCmp] at h1 h2 ⊢
  exact zipCmp_lt_trans h1 h2

theorem zipCmp_lt_lexCmp_lt : ∀ {x y : List Nat}, zipCmp x y = Ordering.lt →
    lexCmp (x.map lower) (y.map lower) = Ordering.lt
  | [], _, h => nomatch h
  | _ :: _, [], h => nomatch h
  | a :: as, b :: bs, h => by
    rw [zipCmp] at h
    rcases hab : natCmp (lower a) (lower b) with _ | _ | _ <;> (try rw [hab] at h)
    · simp only [List.map_cons]
      exact lexCmp_cons_lt _ _ (natCmp_lt_iff.1 hab)
    · simp only [List.map_cons]
      rw [lexCmp_cons_eq _ _ (natCmp_eq_iff.1 hab)]
      exact zipCmp_lt_lexCmp_lt h
    · exact nomatch h

/-- Strict source order implies strict order in the intended case-insensitive
lexicographic order (the converse fails for prefix-related names). -/
theorem cmp_lt_lexCmp_lt {a b : HeaderName} (h : a.cmp b = Ordering.lt) :
    lexCmp (a.bytes.map lower) (b.bytes.map lower) = Ordering.lt := by
  rw [cmp_eq_zipCmp] at h
  exact zipCmp_lt_lexCmp_lt h

theorem beq_iff : ∀ (s o : List Nat),
    HeaderName.beq ⟨s⟩ ⟨o⟩ = true ↔ s.map lower = o.map lower
  | [], [] => by simp [HeaderName.beq]
  | [], _ :: _ => by simp [HeaderName.beq]
  | _ :: _, [] => by simp [HeaderName.beq]
  | a :: as, b :: bs => by
    by_cases hl : as.length = bs.length
    · have ih := beq_iff as bs
      simp only [HeaderName.beq, hl] at ih ⊢
      simp_all [List.zip_cons_cons]
    · have hmap : ¬(List.map lower as = List.map lower bs) := fun h => hl (by
        have := congrArg List.length h
        simpa using this)
      simp [HeaderName.beq, hl, hmap]

theorem hn_beq_iff (s o : HeaderName) :
    s.beq o = true ↔ s.bytes.map lower = o.bytes.map lower := by
  cases s
  cases o
  exact beq_iff _ _

theorem map_lower_eq_zipCmp_eq : ∀ {x y : List Nat}, x.map lower = y.map lower →
    zipCmp x y = Ordering.eq
  | [], [], _ => rfl
  | [], _ :: _, h => nomatch h
  | _ :: _, [], h => nomatch h
  | a :: as, b :: bs, h => by
    simp only [List.map_cons, List.cons.injEq] at h
    rw [zipCmp, natCmp_eq_iff.2 h.1]
    exact map_lower_eq_zipCmp_eq h.2

theorem cmp_lt_beq_false {a b : HeaderName} (h : a.cmp b = Ordering.lt) :
    a.beq b = false := by
  cases hb : a.beq b
  · rfl
  · rw [cmp_eq_zipCmp, map_lower_eq_zipCmp_eq ((hn_beq_iff a b).1 hb)] at h
    exact nomatch h


/-! Helper lemmas about the map layer. -/

theorem keys_append_eq : ∀ (l : List (HeaderName × HeaderValue)) (n : HeaderName)
    (v : HeaderValue),
    (appendEntries l n v).map Prod.fst = (insertEntries l n v).map Prod.fst
  | [], _, _ => rfl
  | (k, w) :: rest, n, v => by
    rw [appendEntries, insertEntries]
    rcases HeaderName.cmp n k with _ | _ | _ <;> simp
    exact keys_append_eq rest n v

theorem mem_keys_insert : ∀ {l : List (HeaderName × HeaderValue)} {n : HeaderName}
    {v : HeaderValue} {a : HeaderName},
    a ∈ (insertEntries l n v).map Prod.fst → a = n ∨ a ∈ l.map Prod.fst
  | [], n, v, a => by simp [insertEntries]
  | (k, w) :: rest, n, v, a => by
    rw [insertEntries]
    rcases HeaderName.cmp n k with _ | _ | _ <;>
      intro h <;> simp only [List.map_cons, List.mem_cons] at h ⊢
    · tauto
    · tauto
    · rcases h with h | h
      · tauto
      · rcases mem_keys_insert h with h1 | h1 <;> tauto

theorem pairwise_keys_insert : ∀ {l : List (HeaderName × HeaderValue)} {n : HeaderName}
    {v : HeaderValue},
    (l.map Prod.fst).Pairwise (fun a b => a.cmp b = Ordering.lt) →
    ((insertEntries l n v).map Prod.fst).Pairwise (fun a b => a.cmp b = Ordering.lt)
  | [], n, v, _ => by simp [insertEntries]
  | (k, w) :: rest, n, v, h => by
    rw [List.map_cons, List.pairwise_cons] at h
    obtain ⟨hk, hrest⟩ := h
    rw [insertEntries]
    rcases hc : HeaderName.cmp n k with _ | _ | _
    · simp only [List.map_cons, List.pairwise_cons]
      refine ⟨?_, fun b hb => hk b hb, hrest⟩
      intro b hb
      simp only [List.mem_cons] at hb
      rcases hb with rfl | hb
      · exact hc
      · exact cmp_lt_trans hc (hk b hb)
    · simp only [List.map_cons, List.pairwise_cons]
      exact ⟨hk, hrest⟩
    · simp only [List.map_cons, List.pairwise_cons]
      refine ⟨?_, pairwise_keys_insert hrest⟩
      intro b hb
      rcases mem_keys_insert hb with rfl | hb1
      · exact (cmp_gt_iff _ _).1 hc
      · exact hk b hb1

theorem removeEntries_sublist : ∀ (l : List (HeaderName × HeaderValue)) (n : HeaderName),
    (removeEntries l n).Sublist l
  | [], _ => List.Sublist.refl _
  | (k, w) :: rest, n => by
    rw [removeEntries]
    rcases HeaderName.cmp n k with _ | _ | _
    · exact List.Sublist.refl _
    · exact List.sublist_cons_self _ _
    · exact List.Sublist.cons₂ _ (removeEntries_sublist rest n)

theorem get_insert_self : ∀ (l : List (HeaderName × HeaderValue)) (n : HeaderName)
    (v : HeaderValue), getEntries (insertEntries l n v) n = some v
  | [], n, v => by simp [insertEntries, getEntries, cmp_refl]
  | (k, w) :: rest, n, v => by
    rw [insertEntries]
    rcases hc : HeaderName.cmp n k with _ | _ | _
    · simp [getEntries, cmp_refl]
    · simp [getEntries, hc]
    · simp [getEntries, hc]
      exact get_insert_self rest n v

theorem append_absent : ∀ (l : List (HeaderName × HeaderValue)) (n : HeaderName)
    (v : HeaderValue), getEntries l n = none → appendEntries l n v = insertEntries l n v
  | [], _, _, _ => rfl
  | (k, w) :: rest, n, v, h => by
    rw [getEntries] at h
    rw [appendEntries, insertEntries]
    rcases hc : HeaderName.cmp n k with _ | _ | _ <;> rw [hc] at h <;> simp at h ⊢
    exact append_absent rest n v h

theorem append_present : ∀ (l : List (HeaderName × HeaderValue)) (n : HeaderName)
    (v old : HeaderValue), getEntries l n = some old →
    getEntries (appendEntries l n v) n = some ⟨old.bytes ++ [44, 32] ++ v.bytes⟩
  | [], _, _, _, h => nomatch h
  | (k, w) :: rest, n, v, old, h => by
    rw [getEntries] at h
    rw [appendEntries]
    rcases hc : HeaderName.cmp n k with _ | _ | _ <;> rw [hc] at h <;> simp at h
    · rw [getEntries, hc]
      simp [h]
    · rw [getEntries, hc]
      exact append_present rest n v old h

theorem keys_insert_present : ∀ (l : List (HeaderName × HeaderValue)) (n : HeaderName)
    (v : HeaderValue), (getEntries l n).isSome →
    (insertEntries l n v).map Prod.fst = l.map Prod.fst
  | [], n, v, h => by simp [getEntries] at h
  | (k, w) :: rest, n, v, h => by
    rw [getEntries] at h
    rw [insertEntries]
    rcases hc : HeaderName.cmp n k with _ | _ | _ <;> rw [hc] at h <;> simp at h ⊢
    exact keys_insert_present rest n v h

theorem pairwise_keys_append {l : List (HeaderName × HeaderValue)} {n : HeaderName}
    {v : HeaderValue}
    (h : (l.map Prod.fst).Pairwise (fun a b => a.cmp b = Ordering.lt)) :
    ((appendEntries l n v).map Prod.fst).Pairwise (fun a b => a.cmp b = Ordering.lt) := by
  rw [keys_append_eq]
  exact pairwise_keys_insert h

theorem ingestStep_some {acc acc' : Headers} {hd : HeaderRef}
    (h : ingestStep acc hd = some acc') :
    ∃ n v, acc' = acc.append n v := by
  rw [ingestStep] at h
  rcases h1 : HeaderName.tryFromBytes hd.name with e | n <;>
    rcases h2 : HeaderValue.tryFromBytes (normalizeValue hd.value) with e2 | v <;>
    rw [h1, h2] at h <;> simp at h
  exact ⟨n, v, h.symm⟩

theorem ingest_sorted_aux : ∀ (hs : List HeaderRef) (acc : Headers),
    (acc.entries.map Prod.fst).Pairwise (fun a b => a.cmp b = Ordering.lt) →
    ∀ m : Headers, hs.foldlM ingestStep acc = some m →
    (m.entries.map Prod.fst).Pairwise (fun a b => a.cmp b = Ordering.lt)
  | [], acc, hacc, m, h => by
    simp only [List.foldlM_nil, Option.pure_def, Option.some.injEq] at h
    exact h ▸ hacc
  | hd :: tl, acc, hacc, m, h => by
    rw [List.foldlM_cons] at h
    rcases hstep : ingestStep acc hd with _ | acc'
    · rw [hstep] at h
      exact nomatch h
    · rw [hstep] at h
      simp only [Option.bind_some, Option.bind_eq_bind] at h
      obtain ⟨n, v, rfl⟩ := ingestStep_some hstep
      exact ingest_sorted_aux tl (acc.append n v) (pairwise_keys_append hacc) m h

theorem reachable_sorted {m : Headers} (h : m.Reachable) :
    (m.entries.map Prod.fst).Pairwise (fun a b => a.cmp b = Ordering.lt) := by
  induction h with
  | empty => simp [Headers.empty]
  | insert m n v _ ih => exact pairwise_keys_insert ih
  | append m n v _ ih => exact pairwise_keys_append ih
  | remove m n _ ih =>
    exact List.Pairwise.sublist (List.Sublist.map Prod.fst (removeEntries_sublist m.entries n)) ih
  | ingest hs m hm => exact ingest_sorted_aux hs Headers.empty (by simp [Headers.empty]) m hm

/-! Helper lemmas about the folding normalizer. -/

theorem findNotWsp_none : ∀ {l : List Nat},
    findNotWsp l = none ↔ List.dropWhile isWsp l = []
  | [] => by simp [findNotWsp]
  | b :: rest => by
    cases hw : isWsp b
    · simp [findNotWsp, hw]
    · rw [findNotWsp, List.dropWhile_cons, hw]
      simp only [Bool.not_true, Bool.false_eq_true, if_false, if_true, Option.map_eq_none']
      exact findNotWsp_none

theorem findNotWsp_some : ∀ {l : List Nat} {pos : Nat},
    findNotWsp l = some pos → l.drop pos = List.dropWhile isWsp l
  | [], pos => by simp [findNotWsp]
  | b :: rest, pos => by
    cases hw : isWsp b
    · rw [findNotWsp, List.dropWhile_cons, hw]
      simp only [Bool.not_false, Bool.false_eq_true, if_true, if_false]
      intro h
      obtain rfl : pos = 0 := by simpa using h.symm
      rfl
    · rw [findNotWsp, List.dropWhile_cons, hw]
      simp only [Bool.not_true, Bool.false_eq_true, if_false, if_true]
      intro h
      rw [Option.map_eq_some'] at h
      obtain ⟨p, hp, rfl⟩ := h
      exact findNotWsp_some hp

/-! Helper lemmas about validation. -/

theorem ascii_utf8Run : ∀ {l : List Nat}, isAsciiBytes l = true → utf8Run [] l = true
  | [], _ => rfl
  | b :: rest, h => by
    rw [isAsciiBytes, List.all_cons] at h
    simp only [Bool.and_eq_true, decide_eq_true_eq] at h
    rw [utf8Run, if_pos h.1]
    exact ascii_utf8Run h.2

theorem ascii_isValidUtf8 {l : List Nat} (h : isAsciiBytes l = true) :
    isValidUtf8 l = true := by
  rw [isValidUtf8]
  exact ascii_utf8Run h

theorem normalizeValue_nil : normalizeValue [] = [] := by
  rw [normalizeValue]

theorem normalizeValue_crlf_end {rest : List Nat} (h : List.dropWhile isWsp rest = []) :
    normalizeValue (13 :: 10 :: rest) = [] := by
  rw [normalizeValue, if_pos ⟨rfl, rfl⟩]
  simp only [List.tail_cons]
  rw [findNotWsp_none.2 h]

theorem normalizeValue_crlf_mid {rest : List Nat} (h : List.dropWhile isWsp rest ≠ []) :
    normalizeValue (13 :: 10 :: rest) = 32 :: normalizeValue (List.dropWhile isWsp rest) := by
  rcases hf : findNotWsp rest with _ | pos
  · exact absurd (findNotWsp_none.1 hf) h
  · rw [normalizeValue, if_pos ⟨rfl, rfl⟩]
    simp only [List.tail_cons]
    rw [hf]
    dsimp only
    rw [findNotWsp_some hf]

theorem normalizeValue_other {b : Nat} {rest : List Nat}
    (h : ¬(b = 13 ∧ rest.head? = some 10)) :
    normalizeValue (b :: rest) = b :: normalizeValue rest := by
  rw [normalizeValue, if_neg h]

/-! Claim theorems. -/

/-- C1. The `Hash` impl feeds the raw stored bytes to the hasher, so the two
case-insensitively equal names "A" and "a" (which compare equal under
`HeaderName.beq`) feed different byte streams and hash to different values
under an injective hasher — contradicting the impl's own "case-insensitive
hashing" documentation and the spec's requirement that equal names hash
identically. -/
theorem headerName_hash_raw_bytes :
    HeaderName.beq ⟨[65]⟩ ⟨[97]⟩ = true ∧
    HeaderName.hashWith (fun h b => h * 256 + b) 0 ⟨[65]⟩ ≠
      HeaderName.hashWith (fun h b => h * 256 + b) 0 ⟨[97]⟩ := by
  decide

/-- C2. Two header names are equal exactly when their byte strings agree after
per-byte ASCII case folding, and names of different lengths are never
equal. -/
theorem headerName_eq_iff_casefold (s o : HeaderName) :
    (s.beq o = true ↔ s.bytes.map lower = o.bytes.map lower) ∧
    (s.bytes.length ≠ o.bytes.length → s.beq o = false) := by
  refine ⟨hn_beq_iff s o, fun hl => ?_⟩
  cases hb : s.beq o
  · rfl
  · have hm := (hn_beq_iff s o).1 hb
    have : s.bytes.length = o.bytes.length := by
      have := congrArg List.length hm
      simpa using this
    exact absurd this hl

theorem headerName_eq_iff_casefold_witness :
    HeaderName.beq ⟨[65]⟩ ⟨[97, 98]⟩ = false :=
  (headerName_eq_iff_casefold ⟨[65]⟩ ⟨[97, 98]⟩).2 (by decide)

/-- C3. The ordering tie-break is dead in the source: `s` and `o` are rebound
to the min-length slices before the final `s.len().cmp(&o.len())`, so two
names whose lowercased shared prefix matches compare `Ordering::Equal`
whatever their lengths. The names "a" and "ab" compare `Equal` even though
they are unequal under `PartialEq` and the claimed case-insensitive
lexicographic order ranks "a" strictly first. -/
theorem headerName_cmp_prefix_collapse :
    HeaderName.cmp ⟨[97]⟩ ⟨[97, 98]⟩ = Ordering.eq ∧
    HeaderName.beq ⟨[97]⟩ ⟨[97, 98]⟩ = false ∧
    lexCmp (List.map lower [97]) (List.map lower [97, 98]) = Ordering.lt := by
  decide

/-- C4. The folding normalizer is the described left-to-right scan: a CRLF
and the maximal following run of spaces/tabs become a single space, except
that a fold run reaching end of input emits nothing, and every other byte is
copied unchanged; ingesting ("X-Test", "foo\r\n   bar") yields the value
"foo bar" and ingesting ("X-Test", "foo\r\n   ") yields "foo". -/
theorem folding_normalizer_scan :
    (normalizeValue [] = []) ∧
    (∀ rest : List Nat, List.dropWhile isWsp rest = [] →
      normalizeValue (13 :: 10 :: rest) = []) ∧
    (∀ rest : List Nat, List.dropWhile isWsp rest ≠ [] →
      normalizeValue (13 :: 10 :: rest) = 32 :: normalizeValue (List.dropWhile isWsp rest)) ∧
    (∀ (b : Nat) (rest : List Nat), ¬(b = 13 ∧ rest.head? = some 10) →
      normalizeValue (b :: rest) = b :: normalizeValue rest) ∧
    (Headers.fromHeadersRef [⟨strBytes "X-Test", strBytes "foo\r\n   bar"⟩]).map
        (fun m => m.get ⟨strBytes "X-Test"⟩) = some (some ⟨strBytes "foo bar"⟩) ∧
    (Headers.fromHeadersRef [⟨strBytes "X-Test", strBytes "foo\r\n   "⟩]).map
        (fun m => m.get ⟨strBytes "X-Test"⟩) = some (some ⟨strBytes "foo"⟩) := by
  refine ⟨normalizeValue_nil, fun rest h => normalizeValue_crlf_end h,
    fun rest h => normalizeValue_crlf_mid h, fun b rest h => normalizeValue_other h, ?_, ?_⟩
  · simp only [Headers.fromHeadersRef, List.foldlM]
    simp [ingestStep, normalizeValue, findNotWsp, isWsp, strBytes]
    decide
  · simp only [Headers.fromHeadersRef, List.foldlM]
    simp [ingestStep, normalizeValue, findNotWsp, isWsp, strBytes]
    decide

theorem folding_normalizer_scan_witness :
    normalizeValue (13 :: 10 :: [32, 98]) =
      32 :: normalizeValue (List.dropWhile isWsp [32, 98]) ∧
    normalizeValue (13 :: 10 :: [32, 9]) = [] ∧
    normalizeValue (97 :: [98]) = 97 :: normalizeValue [98] :=
  ⟨folding_normalizer_scan.2.2.1 [32, 98] (by decide),
    folding_normalizer_scan.2.1 [32, 9] (by decide),
    folding_normalizer_scan.2.2.2.1 97 [98] (by decide)⟩

/-- C5. With "foo" stored, appending under "foobar" — a case-insensitively
absent name (different length, so unequal under `PartialEq`) — does not
behave like an insert: the always-Equal ordering tie-break makes the map's
entry lookup match the "foo" entry and the values are merged in place into
"w, v", which also differs from what inserting "foobar" would leave
behind. -/
theorem append_absent_name_merges :
    HeaderName.beq ⟨strBytes "foo"⟩ ⟨strBytes "foobar"⟩ = false ∧
    (Headers.empty.insert ⟨strBytes "foo"⟩ ⟨strBytes "w"⟩).append ⟨strBytes "foobar"⟩
        ⟨strBytes "v"⟩ =
      Headers.empty.insert ⟨strBytes "foo"⟩ ⟨strBytes "w, v"⟩ ∧
    (Headers.empty.insert ⟨strBytes "foo"⟩ ⟨strBytes "w"⟩).append ⟨strBytes "foobar"⟩
        ⟨strBytes "v"⟩ ≠
      (Headers.empty.insert ⟨strBytes "foo"⟩ ⟨strBytes "w"⟩).insert ⟨strBytes "foobar"⟩
        ⟨strBytes "v"⟩ := by
  decide

/-- C6. An `insert` unconditionally overwrites: inserting twice under one name
and reading back returns exactly the second value, and a single insert is
always readable. -/
theorem insert_overwrite_law (m : Headers) (n : HeaderName) (v1 v2 : HeaderValue) :
    ((m.insert n v1).insert n v2).get n = some v2 ∧
    (m.insert n v2).get n = some v2 :=
  ⟨get_insert_self (insertEntries m.entries n v1) n v2, get_insert_self m.entries n v2⟩

/-- C7. Every map reachable from the empty map through insert, append and
remove, and every map built by bulk ingestion, keeps its names strictly
ascending in the case-insensitive lexicographic order on the lowercased
bytes — hence no two entries have case-insensitively equal names, and
iteration is by name order rather than insertion order; populating with
"zeta" then "Alpha" enumerates "Alpha" first. -/
theorem headers_unique_sorted (m : Headers) (h : m.Reachable) :
    m.names.Pairwise
      (fun a b => lexCmp (a.bytes.map lower) (b.bytes.map lower) = Ordering.lt) ∧
    m.names.Pairwise (fun a b => HeaderName.beq a b = false) ∧
    ((Headers.empty.insert ⟨strBytes "zeta"⟩ ⟨strBytes "1"⟩).insert
        ⟨strBytes "Alpha"⟩ ⟨strBytes "2"⟩).names =
      [⟨strBytes "Alpha"⟩, ⟨strBytes "zeta"⟩] := by
  refine ⟨List.Pairwise.imp (fun hab => cmp_lt_lexCmp_lt hab) (reachable_sorted h),
    List.Pairwise.imp (fun hab => cmp_lt_beq_false hab) (reachable_sorted h), by decide⟩

theorem headers_unique_sorted_witness :
    ((Headers.empty.insert ⟨strBytes "zeta"⟩ ⟨strBytes "1"⟩).insert
        ⟨strBytes "Alpha"⟩ ⟨strBytes "2"⟩).names.Pairwise
      (fun a b => lexCmp (a.bytes.map lower) (b.bytes.map lower) = Ordering.lt) ∧
    ((Headers.empty.insert ⟨strBytes "zeta"⟩ ⟨strBytes "1"⟩).insert
        ⟨strBytes "Alpha"⟩ ⟨strBytes "2"⟩).names.Pairwise
      (fun a b => HeaderName.beq a b = false) ∧
    ((Headers.empty.insert ⟨strBytes "zeta"⟩ ⟨strBytes "1"⟩).insert
        ⟨strBytes "Alpha"⟩ ⟨strBytes "2"⟩).names =
      [⟨strBytes "Alpha"⟩, ⟨strBytes "zeta"⟩] :=
  headers_unique_sorted _
    (Headers.Reachable.insert _ _ _ (Headers.Reachable.insert _ _ _ Headers.Reachable.empty))

/-- C8. A `HeaderName` constructor fails with `AsciiError` exactly on inputs
containing a byte at or above 0x80 and otherwise succeeds; a `HeaderValue`
built from raw bytes fails with `Utf8Error` exactly on invalid UTF-8 and
otherwise succeeds; in particular a name containing 0xFF and the value bytes
[0xC0, 0x80] are rejected. -/
theorem constructor_error_conditions :
    (∀ v : List Nat, (∃ b ∈ v, 128 ≤ b) →
      HeaderName.tryFromBytes v = Except.error AsciiError.mk ∧
      HeaderName.fromStaticStr v = Except.error AsciiError.mk) ∧
    (∀ v : List Nat, (∀ b ∈ v, b < 128) →
      HeaderName.tryFromBytes v = Except.ok ⟨v⟩ ∧
      HeaderName.fromStaticStr v = Except.ok ⟨v⟩) ∧
    (∀ v : List Nat, isValidUtf8 v = false →
      HeaderValue.tryFromBytes v = Except.error Utf8Error.mk) ∧
    (∀ v : List Nat, isValidUtf8 v = true →
      HeaderValue.tryFromBytes v = Except.ok ⟨v⟩) ∧
    HeaderName.tryFromBytes [104, 255] = Except.error AsciiError.mk ∧
    HeaderValue.tryFromBytes [192, 128] = Except.error Utf8Error.mk := by
  refine ⟨fun v hv => ?_, fun v hv => ?_, fun v hv => ?_, fun v hv => ?_, by decide, by decide⟩
  · obtain ⟨b, hb, hbe⟩ := hv
    have ha : isAsciiBytes v = false := by
      rw [isAsciiBytes, List.all_eq_false]
      exact ⟨b, hb, by simpa using hbe⟩
    rw [HeaderName.tryFromBytes, if_neg (by simp [ha]), HeaderName.fromStaticStr,
      if_neg (by simp [ha])]
    exact ⟨rfl, rfl⟩
  · have ha : isAsciiBytes v = true := by
      rw [isAsciiBytes, List.all_eq_true]
      intro b hb
      simpa using hv b hb
    rw [HeaderName.tryFromBytes, if_pos ha, if_pos (ascii_isValidUtf8 ha),
      HeaderName.fromStaticStr, if_pos ha]
    exact ⟨rfl, rfl⟩
  · rw [HeaderValue.tryFromBytes, if_neg (by simp [hv])]
  · rw [HeaderValue.tryFromBytes, if_pos hv]

theorem constructor_error_conditions_witness :
    HeaderName.tryFromBytes [255] = Except.error AsciiError.mk ∧
    HeaderName.fromStaticStr [65] = Except.ok ⟨[65]⟩ ∧
    HeaderValue.tryFromBytes [192, 128] = Except.error Utf8Error.mk ∧
    HeaderValue.tryFromBytes [97] = Except.ok ⟨[97]⟩ :=
  ⟨(constructor_error_conditions.1 [255] ⟨255, by decide, by decide⟩).1,
    (constructor_error_conditions.2.1 [65] (by decide)).2,
    constructor_error_conditions.2.2.1 [192, 128] (by decide),
    constructor_error_conditions.2.2.2.1 [97] (by decide)⟩

/-- C9. Bulk-ingesting ("X-Test", "a") then ("x-test", "b") produces a map
with exactly one entry, readable under either spelling of the name, whose
value is "a, b". -/
theorem ingest_cross_entry_merge :
    (Headers.fromHeadersRef [⟨strBytes "X-Test", strBytes "a"⟩,
        ⟨strBytes "x-test", strBytes "b"⟩]).map
      (fun m => (m.entries.length, m.get ⟨strBytes "X-Test"⟩, m.get ⟨strBytes "x-test"⟩)) =
      some (1, some ⟨strBytes "a, b"⟩, some ⟨strBytes "a, b"⟩) := by
  simp only [Headers.fromHeadersRef, List.foldlM]
  simp [ingestStep, normalizeValue, findNotWsp, isWsp, strBytes]
  decide

/-- C10. When a name is already present, `insert` and `append` with any
(possibly differently cased) case-insensitively equal name leave the stored
key list unchanged: the first-inserted casing persists. -/
theorem stored_key_casing_preserved (m : Headers) (n : HeaderName) (v : HeaderValue)
    (h : (m.get n).isSome = true) :
    (m.insert n v).names = m.names ∧ (m.append n v).names = m.names := by
  constructor
  · exact keys_insert_present m.entries n v h
  · show (appendEntries m.entries n v).map Prod.fst = _
    rw [keys_append_eq]
    exact keys_insert_present m.entries n v h

theorem stored_key_casing_preserved_witness :
    ((Headers.empty.insert ⟨strBytes "X-Test"⟩ ⟨strBytes "1"⟩).insert ⟨strBytes "x-test"⟩
        ⟨strBytes "2"⟩).names =
      (Headers.empty.insert ⟨strBytes "X-Test"⟩ ⟨strBytes "1"⟩).names ∧
    ((Headers.empty.insert ⟨strBytes "X-Test"⟩ ⟨strBytes "1"⟩).append ⟨strBytes "x-test"⟩
        ⟨strBytes "2"⟩).names =
      (Headers.empty.insert ⟨strBytes "X-Test"⟩ ⟨strBytes "1"⟩).names :=
  stored_key_casing_preserved _ ⟨strBytes "x-test"⟩ ⟨strBytes "2"⟩ (by decide)

end RtspTypes
